import Mathlib

set_option maxHeartbeats 1000000

/-!
Verification development for the ximple observable/atom library.

The embedding translates the final stream core (`Subject`, `BehaviorSubject`
with `equalityCompareFn`) and the atom update scheduler
(queue / throttle / debounce policies) into executable Lean definitions, and
proves the behavioural properties of the specification against them.
-/

namespace Ximple

/-- A registered subscriber of a `Subject`.  The JS callback is modelled by
its observable behaviour when invoked: `throws v` tells whether the callback
raises an exception when notified with `v`.  `id` is the identity assigned by
`Subject._subscribe` from the monotone id generator. -/
structure Subscriber (T : Type) where
  id : Nat
  throws : T → Bool

/-- JS `this.subscribers.forEach((s) => s.notify(value))` inside
`Subject._next`: callbacks run in registration order; an exception thrown by
one callback aborts the iteration and propagates to the caller.  Returns the
ids of the subscribers that were actually invoked (the thrower included,
since its callback did run before raising) together with the flag telling
whether an exception escaped. -/
def notifyAll {T : Type} (subs : List (Subscriber T)) (v : T) : List Nat × Bool :=
  match subs with
  | [] => ([], false)
  | s :: rest =>
    if s.throws v then ([s.id], true)
    else
      let r := notifyAll rest v
      (s.id :: r.1, r.2)

/-- State of `Subject<T>` (final core, the copy with `equalityCompareFn`):
the subscriber list, `_previousValue` (undefined before the first emission,
modelled as `none`), the configured `equalityCompareFn`, and the id
generator feeding `_subscribe`. -/
structure Subject (T : Type) where
  subscribers : List (Subscriber T)
  previousValue : Option T
  equalityCompareFn : T → Option T → Bool
  idgen : Nat

/-- Default comparator `(newValue, oldValue) => newValue === oldValue`; an
undefined `oldValue` is never `===`-equal to a present value. -/
def defaultEq {T : Type} [DecidableEq T] : T → Option T → Bool :=
  fun v o =>
    match o with
    | some w => decide (v = w)
    | none => false

/-- Constructor `new Subject<T>(config)` with an explicit comparator (the
source falls back to `defaultEq` when the config has none). -/
def Subject.make {T : Type} (eqFn : T → Option T → Bool) : Subject T :=
  { subscribers := [], previousValue := none, equalityCompareFn := eqFn, idgen := 0 }

/-- Result of one `next` call on a `Subject`: the state afterwards, the ids
that were notified in order, and whether a subscriber exception escaped to
the caller of `next`. -/
structure NextResult (T : Type) where
  state : Subject T
  notified : List Nat
  exc : Bool

/-- Translation of `Subject._next`: if the comparator does not equate `value`
with `_previousValue`, every subscriber is notified in registration order;
then `this._previousValue = value` runs — an assignment that is skipped when
a subscriber exception aborts the broadcast first, because the exception
propagates out of `_next` before reaching it. -/
def Subject.next {T : Type} (s : Subject T) (v : T) : NextResult T :=
  if s.equalityCompareFn v s.previousValue then
    { state := { s with previousValue := some v }, notified := [], exc := false }
  else
    let r := notifyAll s.subscribers v
    if r.2 then { state := s, notified := r.1, exc := true }
    else { state := { s with previousValue := some v }, notified := r.1, exc := false }

/-- Translation of `Subject._subscribe`: push a fresh subscriber record with
the next generated id and hand back that id (the returned revoke closure is
modelled by calling `unsubscribe` with it). -/
def Subject.subscribe {T : Type} (s : Subject T) (f : T → Bool) : Subject T × Nat :=
  ({ s with subscribers := s.subscribers ++ [⟨s.idgen, f⟩], idgen := s.idgen + 1 },
   s.idgen)

/-- Translation of `Subject.unsubscribe`: `indexOf` the subscriber record,
then `if (index > 0) this.subscribers.splice(index, 1)` — written exactly as
in the source, including the `> 0` comparison. -/
def Subject.unsubscribe {T : Type} (s : Subject T) (id : Nat) : Subject T :=
  match s.subscribers.findIdx? (fun sub => sub.id == id) with
  | some i => if i > 0 then { s with subscribers := s.subscribers.eraseIdx i } else s
  | none => s

/-- State of `BehaviorSubject<T>`: the underlying `Subject` plus the retained
`_value`. -/
structure BehaviorSubject (T : Type) where
  base : Subject T
  value : T

/-- Constructor `new BehaviorSubject<T>(initialValue, config)`: sets `_value`
to the initial value and — in the final core — also seeds `_previousValue`
with it. -/
def BehaviorSubject.make {T : Type} (initialValue : T) (eqFn : T → Option T → Bool) :
    BehaviorSubject T :=
  { base := { subscribers := [], previousValue := some initialValue,
              equalityCompareFn := eqFn, idgen := 0 },
    value := initialValue }

/-- Translation of the `BehaviorSubject.next` override: `this._value = value`
runs first and unconditionally, then `this._next(value)` performs the
equality-gated broadcast. -/
def BehaviorSubject.next {T : Type} (b : BehaviorSubject T) (v : T) :
    BehaviorSubject T × List Nat × Bool :=
  let r := b.base.next v
  ({ base := r.state, value := v }, r.notified, r.exc)

/-- Translation of the `BehaviorSubject.subscribe` override:
`notify(this._value)` replays the current value first, then
`this._subscribe(notify)` registers the callback; a callback that throws on
the replay is therefore never registered.  Returns the state, the id when
registration happened, and the value delivered by the replay. -/
def BehaviorSubject.subscribe {T : Type} (b : BehaviorSubject T) (f : T → Bool) :
    BehaviorSubject T × Option Nat × T :=
  if f b.value then (b, none, b.value)
  else
    let r := b.base.subscribe f
    ({ b with base := r.1 }, some r.2, b.value)

/-- Registering a list of callbacks one after the other. -/
def subscribeAll {T : Type} (b : BehaviorSubject T) : List (T → Bool) → BehaviorSubject T
  | [] => b
  | f :: fs => subscribeAll (b.subscribe f).1 fs

theorem notifyAll_no_throw {T : Type} {subs : List (Subscriber T)} {v : T}
    (h : ∀ s ∈ subs, s.throws v = false) :
    notifyAll subs v = (subs.map (fun s => s.id), false) := by
  induction subs with
  | nil => rfl
  | cons s rest ih =>
    have hs : s.throws v = false := h s (List.mem_cons_self s rest)
    have hr := ih (fun x hx => h x (List.mem_cons_of_mem _ hx))
    simp [notifyAll, hs, hr]

theorem notifyAll_thrower {T : Type} (pre post : List (Subscriber T))
    (t : Subscriber T) (v : T)
    (hpre : ∀ s ∈ pre, s.throws v = false) (ht : t.throws v = true) :
    notifyAll (pre ++ t :: post) v = (pre.map (fun s => s.id) ++ [t.id], true) := by
  induction pre with
  | nil => simp [notifyAll, ht]
  | cons s rest ih =>
    have hs : s.throws v = false := hpre s (List.mem_cons_self s rest)
    have hr := ih (fun x hx => hpre x (List.mem_cons_of_mem _ hx))
    simp [notifyAll, hs, hr]

/-- C6: on every `next v` call whose registered callbacks do not throw on
`v`, the subscribers are notified with `v` in registration order exactly when
the configured comparator does not equate `v` with the last-emitted value,
the last-emitted value becomes `v` unconditionally, and a subsequent `next`
with a value the comparator equates to `v` notifies nobody — so two
successive `next` calls with comparator-equal values notify only once. -/
theorem next_equality_suppression {T : Type} (s : Subject T) (v : T)
    (h : ∀ sub ∈ s.subscribers, sub.throws v = false) :
    ((s.next v).notified =
      if s.equalityCompareFn v s.previousValue then []
      else s.subscribers.map (fun sub => sub.id))
    ∧ (s.next v).state.previousValue = some v
    ∧ (∀ w, s.equalityCompareFn w (some v) = true →
        (((s.next v).state).next w).notified = []) := by
  have hn := notifyAll_no_throw h
  by_cases hc : s.equalityCompareFn v s.previousValue
  · refine ⟨by simp [Subject.next, hc], by simp [Subject.next, hc], ?_⟩
    intro w hw
    simp [Subject.next, hc, hw]
  · refine ⟨by simp [Subject.next, hc, hn], by simp [Subject.next, hc, hn], ?_⟩
    intro w hw
    simp [Subject.next, hc, hn, hw]

/-- Closed instance of `next_equality_suppression`: a subject with the
default comparator and one non-throwing subscriber, receiving `5`. -/
theorem next_equality_suppression_w :
    let s := ((Subject.make (@defaultEq Nat _)).subscribe (fun _ => false)).1
    ((s.next 5).notified =
      if s.equalityCompareFn 5 s.previousValue then []
      else s.subscribers.map (fun sub => sub.id))
    ∧ (s.next 5).state.previousValue = some 5
    ∧ (∀ w, s.equalityCompareFn w (some 5) = true →
        (((s.next 5).state).next w).notified = []) :=
  next_equality_suppression _ 5 (by
    intro sub hs
    simp [Subject.make, Subject.subscribe] at hs
    subst hs
    rfl)

/-- Subject with one registered (non-throwing) subscriber, necessarily at
index `0` of the subscriber list; its id is `0`. -/
def subjOne : Subject Nat :=
  (Subject.subscribe (Subject.make defaultEq) (fun _ => false)).1

/-- C7: evaluation of the code at the failing input.  A subject's very first
subscriber sits at index `0` of the subscriber list, and `Subject.unsubscribe`
only splices the list when `indexOf` returns an index strictly greater than
`0`, so the revoke call returned by `Subject.subscribe` leaves the list
unchanged and a later `Subject.next` still notifies the supposedly removed
subscriber. -/
theorem unsubscribe_first_subscriber_stuck :
    (Subject.unsubscribe subjOne 0).subscribers = subjOne.subscribers
    ∧ (Subject.next (Subject.unsubscribe subjOne 0) 5).notified = [0] :=
  ⟨rfl, rfl⟩

/-- C8 counterexample: a subject with two subscribers where the first one
throws.  The broadcast of `7` invokes only subscriber `0`; subscriber `1`,
registered after the thrower in the same broadcast, never receives the
value, contradicting the claim that a throwing subscriber does not prevent
delivery to later subscribers. -/
theorem throwing_subscriber_blocks_delivery_cx :
    let s : Subject Nat :=
      { subscribers := [⟨0, fun v => v == 7⟩, ⟨1, fun _ => false⟩],
        previousValue := none, equalityCompareFn := defaultEq, idgen := 2 }
    (s.next 7).notified = [0] ∧ (s.next 7).exc = true :=
  ⟨rfl, rfl⟩

/-- C8 amended: a subscriber callback that throws during a broadcast aborts
the broadcast — the subscribers registered before it are notified in order,
the thrower itself runs, the subscribers registered after it receive
nothing, the exception escapes to the caller of `next`, and the last-emitted
value is not updated. -/
theorem throwing_subscriber_aborts_broadcast {T : Type} (s : Subject T)
    (pre post : List (Subscriber T)) (t : Subscriber T) (v : T)
    (hsubs : s.subscribers = pre ++ t :: post)
    (hpre : ∀ sub ∈ pre, sub.throws v = false) (ht : t.throws v = true)
    (hc : s.equalityCompareFn v s.previousValue = false) :
    (s.next v).notified = pre.map (fun sub => sub.id) ++ [t.id]
    ∧ (s.next v).exc = true
    ∧ (s.next v).state = s := by
  have hn := notifyAll_thrower pre post t v hpre ht
  refine ⟨?_, ?_, ?_⟩ <;> simp [Subject.next, hc, hsubs, hn]

/-- Closed instance of `throwing_subscriber_aborts_broadcast` at the
two-subscriber counterexample configuration. -/
theorem throwing_subscriber_aborts_broadcast_w :
    let s : Subject Nat :=
      { subscribers := [⟨0, fun v => v == 7⟩, ⟨1, fun _ => false⟩],
        previousValue := none, equalityCompareFn := defaultEq, idgen := 2 }
    (s.next 7).notified = [] ++ [0] ∧ (s.next 7).exc = true ∧ (s.next 7).state = s :=
  throwing_subscriber_aborts_broadcast _ [] [⟨1, fun _ => false⟩]
    ⟨0, fun v => v == 7⟩ 7 rfl (by intro sub hs; simp at hs) rfl rfl

theorem subscribeAll_inv {T : Type} (fs : List (T → Bool)) (b : BehaviorSubject T) :
    (subscribeAll b fs).value = b.value
    ∧ (subscribeAll b fs).base.previousValue = b.base.previousValue
    ∧ (subscribeAll b fs).base.equalityCompareFn = b.base.equalityCompareFn := by
  induction fs generalizing b with
  | nil => exact ⟨rfl, rfl, rfl⟩
  | cons f fs ih =>
    have h := ih (b.subscribe f).1
    by_cases hf : f b.value <;>
      simpa [subscribeAll, BehaviorSubject.subscribe, Subject.subscribe, hf] using h

/-- C10: after `new BehaviorSubject(v0)` with the default comparator and any
sequence of registrations, a first `next v0` call notifies no subscribers —
the constructor pre-loads `v0` as the de-duplication value — while a
subscriber whose callback does not throw on the replay still receives `v0`
once through replay-on-subscribe. -/
theorem behavior_first_next_suppressed {T : Type} [DecidableEq T] (v0 : T)
    (fs : List (T → Bool)) (g : T → Bool) (hg : g v0 = false) :
    ((subscribeAll (BehaviorSubject.make v0 defaultEq) fs).next v0).2.1 = []
    ∧ ((subscribeAll (BehaviorSubject.make v0 defaultEq) fs).subscribe g).2.2 = v0
    ∧ ((subscribeAll (BehaviorSubject.make v0 defaultEq) fs).subscribe g).2.1.isSome
        = true := by
  obtain ⟨hv, hp, he⟩ := subscribeAll_inv fs (BehaviorSubject.make v0 defaultEq)
  have hb : (BehaviorSubject.make v0 defaultEq : BehaviorSubject T).base.previousValue
      = some v0 := rfl
  refine ⟨?_, ?_, ?_⟩
  · have hcmp : (subscribeAll (BehaviorSubject.make v0 defaultEq) fs).base.equalityCompareFn
        v0 (subscribeAll (BehaviorSubject.make v0 defaultEq) fs).base.previousValue
        = true := by
      rw [he, hp, hb]
      simp [BehaviorSubject.make, defaultEq]
    simp [BehaviorSubject.next, Subject.next, hcmp]
  · simp only [BehaviorSubject.subscribe]
    split <;> simpa [BehaviorSubject.make] using hv
  · have hgv : g (subscribeAll (BehaviorSubject.make v0 defaultEq) fs).value = false := by
      rw [hv]; exact hg
    simp [BehaviorSubject.subscribe, hgv]

/-- Closed instance of `behavior_first_next_suppressed`: initial value `3`,
one prior subscriber, a fresh non-throwing subscriber. -/
theorem behavior_first_next_suppressed_w :
    ((subscribeAll (BehaviorSubject.make 3 defaultEq) [fun _ => false]).next 3).2.1 = []
    ∧ ((subscribeAll (BehaviorSubject.make 3 defaultEq)
        [fun _ => false]).subscribe (fun _ => false)).2.2 = 3
    ∧ ((subscribeAll (BehaviorSubject.make 3 defaultEq)
        [fun _ => false]).subscribe (fun _ => false)).2.1.isSome = true :=
  behavior_first_next_suppressed 3 [fun _ => false] (fun _ => false) rfl

end Ximple

namespace Atoms

/-- Concurrency policy configured at `atom(...)` construction. -/
inductive Policy where
  | queue
  | throttle
  | debounce
deriving DecidableEq

/-- Configuration fixed for the atom's lifetime: the policy, the window
`concurrencyTime` (default `Number.MAX_SAFE_INTEGER` in the source), and the
caller-supplied reducer `update`, whose asynchronous outcome is either a new
state or a rejection.  The source's no-reducer default (the action itself
becomes the state) is the instantiation `fun _ a => Except.ok a` at `S = T`. -/
structure Config (T S E : Type) where
  policy : Policy
  time : Nat
  reducer : T → S → Except E T

/-- Decidable equality of reducer outcomes, used to evaluate the model on
concrete runs. -/
instance exceptDecEq {E A : Type} [DecidableEq E] [DecidableEq A] :
    DecidableEq (Except E A) := fun a b =>
  match a, b with
  | .error x, .error y =>
    if h : x = y then isTrue (by rw [h]) else isFalse (fun hc => by cases hc; exact h rfl)
  | .error _, .ok _ => isFalse (fun hc => by cases hc)
  | .ok _, .error _ => isFalse (fun hc => by cases hc)
  | .ok x, .ok y =>
    if h : x = y then isTrue (by rw [h]) else isFalse (fun hc => by cases hc; exact h rfl)

/-- Progress of one `updateFunction(value)` call through its suspension
points. -/
inductive Phase (T E : Type) where
  /-- Policy `queue`: suspended on the `Promise.all` of the update promises
  of the descriptors that were already queued at submission (their ids). -/
  | waiting (waitSet : List Nat)
  /-- The reducer has been invoked — its arguments were read at invocation
  time — and its asynchronous result is pending. -/
  | reducing (result : Except E T)
  /-- The call returned at the throttle gate: the caller's promise resolved
  immediately, no reducer ran, no descriptor was created. -/
  | suppressed
  /-- The call returned at the debounce `skip` check after its reducer
  resolved: the result was discarded, nothing was committed, no descriptor
  was removed, no resolver fired, and the caller's promise resolved. -/
  | skipped
  /-- The call committed `subject.next(newValue)`, spliced its descriptor out
  of the queue, fired `resolver(newValue)` and resolved. -/
  | committed
  /-- The reducer rejected: the `await` rethrew out of the async function to
  the caller, skipping the commit, the descriptor removal and the resolver. -/
  | failed (e : E)
deriving DecidableEq

/-- One `updateFunction` call: its action, the `Date.now()` timestamp of its
submission, its descriptor id (`none` when the call was throttled away
before a descriptor was created), the descriptor's `skip` flag (held by the
call's closure, so it survives the queue array being replaced), and the
call's phase. -/
structure Req (T S E : Type) where
  action : S
  tsub : Nat
  myId : Option Nat
  skip : Bool
  phase : Phase T E
deriving DecidableEq

/-- Scheduler state of one atom: `value` models `subject.value` (set
unconditionally by `BehaviorSubject.next` on every commit — the equality
gate only suppresses notifications), `queue` is `updateFunction.queue` as
id/timestamp pairs in order, `resolvedIds` are the descriptor ids whose
`resolver` has fired, `idgen` the id generator, and `tasks` all calls in
submission order. -/
structure Machine (T S E : Type) where
  value : T
  queue : List (Nat × Nat)
  resolvedIds : List Nat
  idgen : Nat
  tasks : List (Req T S E)
deriving DecidableEq

/-- Fresh atom: empty queue, nothing resolved, `idgen = 0`. -/
def Machine.init {T S E : Type} (v0 : T) : Machine T S E :=
  { value := v0, queue := [], resolvedIds := [], idgen := 0, tasks := [] }

/-- Translation of the synchronous prefix of `updateFunction(value)` run at
submission time `now`: the throttle gate
(`queue.length > 0 && throttle && now - queue[0].timestamp <= concurrencyTime`),
the debounce marking (`queue.forEach(x => if (now - x.timestamp < time)
x.skip = true)`) followed by `queue = []`, the descriptor creation and push,
and — because only the `queue` policy awaits its predecessors — the
immediate reducer invocation for `throttle`/`debounce`, whose arguments
`(subject.value, value)` are read at this instant.  Under `queue` the call
suspends on the promises of `queue.slice(0, -1)`, the descriptors queued
before its own push. -/
def submit {T S E : Type} (cfg : Config T S E) (m : Machine T S E) (a : S) (now : Nat) :
    Machine T S E :=
  if m.queue.length > 0 ∧ cfg.policy = .throttle ∧
      now - (m.queue.headD (0, 0)).2 ≤ cfg.time then
    { m with tasks := m.tasks ++ [⟨a, now, none, false, .suppressed⟩] }
  else
    let marked := if cfg.policy = .debounce then
        m.tasks.map (fun t =>
          if m.queue.any (fun p => t.myId == some p.1 && decide (now - p.2 < cfg.time))
          then { t with skip := true } else t)
      else m.tasks
    let q1 := if cfg.policy = .debounce then [] else m.queue
    let newReq : Req T S E :=
      if cfg.policy = .queue then
        ⟨a, now, some m.idgen, false, .waiting (q1.map Prod.fst)⟩
      else
        ⟨a, now, some m.idgen, false, .reducing (cfg.reducer m.value a)⟩
    { value := m.value, queue := q1 ++ [(m.idgen, now)],
      resolvedIds := m.resolvedIds, idgen := m.idgen + 1,
      tasks := marked ++ [newReq] }

/-- Translation of `queue.splice(queue.findIndex(x => x.id === id), 1)`:
removes the element at the found index; when `findIndex` returns `-1`,
JS `splice(-1, 1)` removes the last element of the array. -/
def spliceRemove (q : List (Nat × Nat)) (id : Nat) : List (Nat × Nat) :=
  match q.findIdx? (fun p => p.1 == id) with
  | some i => q.eraseIdx i
  | none => q.dropLast

/-- An asynchronous scheduling step on one call.  `start i` runs call `i`'s
continuation after its `Promise.all` resolves — possible only once every
awaited resolver has fired — invoking the reducer on the current
`subject.value`.  `finish i` runs the continuation after call `i`'s reducer
settles: on rejection the rethrow that leaves queue and resolver untouched;
otherwise the debounce `skip` check, then `subject.next(newValue)`, the
descriptor splice and `resolver(newValue)`. -/
inductive Step where
  | start (i : Nat)
  | finish (i : Nat)
deriving DecidableEq

/-- One event-loop step; a step whose guard does not hold leaves the machine
unchanged (its continuation is not runnable at that moment). -/
def step {T S E : Type} (cfg : Config T S E) (m : Machine T S E) : Step → Machine T S E
  | .start i =>
    match m.tasks[i]? with
    | some t =>
      match t.phase with
      | .waiting ws =>
        if ws.all (fun id => m.resolvedIds.contains id) then
          let t1 : Req T S E := { t with phase := .reducing (cfg.reducer m.value t.action) }
          { m with tasks := m.tasks.set i t1 }
        else m
      | _ => m
    | none => m
  | .finish i =>
    match m.tasks[i]? with
    | some t =>
      match t.phase with
      | .reducing (.error e) =>
        let t1 : Req T S E := { t with phase := .failed e }
        { m with tasks := m.tasks.set i t1 }
      | .reducing (.ok v) =>
        if cfg.policy = .debounce ∧ t.skip then
          let t1 : Req T S E := { t with phase := .skipped }
          { m with tasks := m.tasks.set i t1 }
        else
          let t1 : Req T S E := { t with phase := .committed }
          { m with
            value := v,
            queue := spliceRemove m.queue (t.myId.getD 0),
            resolvedIds := m.resolvedIds ++ [t.myId.getD 0],
            tasks := m.tasks.set i t1 }
      | _ => m
    | none => m

/-- Interleaved external submissions and event-loop steps. -/
inductive Event (S : Type) where
  | sub (a : S) (now : Nat)
  | act (s : Step)
deriving DecidableEq

/-- Running the atom over a sequence of interleaved events. -/
def exec {T S E : Type} (cfg : Config T S E) (m : Machine T S E) :
    List (Event S) → Machine T S E
  | [] => m
  | .sub a now :: evs => exec cfg (submit cfg m a now) evs
  | .act s :: evs => exec cfg (step cfg m s) evs

/-- Submitting a batch of actions back to back, all at timestamp `t0` — the
shape of N concurrently submitted `update` calls. -/
def submitAll {T S E : Type} (cfg : Config T S E) (m : Machine T S E)
    (as : List S) (t0 : Nat) : Machine T S E :=
  as.foldl (fun m a => submit cfg m a t0) m

/-- Running a batch of event-loop steps with no further submissions. -/
def run {T S E : Type} (cfg : Config T S E) (m : Machine T S E)
    (steps : List Step) : Machine T S E :=
  steps.foldl (step cfg) m

/-- Configuration with a total (never-rejecting) reducer `f`. -/
def okCfg {T S : Type} (p : Policy) (w : Nat) (f : T → S → T) : Config T S Empty :=
  ⟨p, w, fun t s => .ok (f t s)⟩

theorem submit_queue_eq {T S E : Type} (r : T → S → Except E T) (w : Nat)
    (m : Machine T S E) (a : S) (now : Nat) :
    submit ⟨.queue, w, r⟩ m a now =
      { value := m.value, queue := m.queue ++ [(m.idgen, now)],
        resolvedIds := m.resolvedIds, idgen := m.idgen + 1,
        tasks := m.tasks ++ [⟨a, now, some m.idgen, false, .waiting (m.queue.map Prod.fst)⟩] } := by
  simp [submit]

theorem submit_debounce_eq {T S E : Type} (r : T → S → Except E T) (w : Nat)
    (m : Machine T S E) (a : S) (now : Nat) :
    submit ⟨.debounce, w, r⟩ m a now =
      { value := m.value, queue := [(m.idgen, now)],
        resolvedIds := m.resolvedIds, idgen := m.idgen + 1,
        tasks := (m.tasks.map (fun t => if m.queue.any (fun p => t.myId == some p.1 && decide (now - p.2 < w)) then { t with skip := true } else t)) ++ [⟨a, now, some m.idgen, false, .reducing (r m.value a)⟩] } := by
  simp [submit]

theorem submit_throttle_gate_eq {T S E : Type} (r : T → S → Except E T) (w : Nat)
    (m : Machine T S E) (a : S) (now : Nat)
    (hg : m.queue.length > 0 ∧ now - (m.queue.headD (0, 0)).2 ≤ w) :
    submit ⟨.throttle, w, r⟩ m a now =
      { m with tasks := m.tasks ++ [⟨a, now, none, false, .suppressed⟩] } := by
  rw [submit, if_pos]
  exact ⟨hg.1, rfl, hg.2⟩

theorem submit_throttle_go_eq {T S E : Type} (r : T → S → Except E T) (w : Nat)
    (m : Machine T S E) (a : S) (now : Nat)
    (hg : ¬(m.queue.length > 0 ∧ now - (m.queue.headD (0, 0)).2 ≤ w)) :
    submit ⟨.throttle, w, r⟩ m a now =
      { value := m.value, queue := m.queue ++ [(m.idgen, now)],
        resolvedIds := m.resolvedIds, idgen := m.idgen + 1,
        tasks := m.tasks ++ [⟨a, now, some m.idgen, false, .reducing (r m.value a)⟩] } := by
  rw [submit, if_neg]
  · simp
  · rintro ⟨h1, -, h2⟩; exact hg ⟨h1, h2⟩

theorem step_start_none {T S E : Type} (cfg : Config T S E) (m : Machine T S E) (i : Nat)
    (hj : m.tasks[i]? = none) : step cfg m (.start i) = m := by
  rw [step.eq_def]
  dsimp only
  rw [hj]

theorem step_start_waiting {T S E : Type} (cfg : Config T S E) (m : Machine T S E)
    (i : Nat) (t : Req T S E) (ws : List Nat)
    (hj : m.tasks[i]? = some t) (hp : t.phase = .waiting ws) :
    step cfg m (.start i) =
      if ws.all (fun id => m.resolvedIds.contains id) then
        { m with tasks := m.tasks.set i { t with phase := .reducing (cfg.reducer m.value t.action) } }
      else m := by
  rw [step.eq_def]
  dsimp only
  rw [hj]
  dsimp only
  rw [hp]

theorem step_start_other {T S E : Type} (cfg : Config T S E) (m : Machine T S E)
    (i : Nat) (t : Req T S E)
    (hj : m.tasks[i]? = some t) (hp : ∀ ws, t.phase ≠ .waiting ws) :
    step cfg m (.start i) = m := by
  rw [step.eq_def]
  dsimp only
  rw [hj]
  dsimp only
  cases hc : t.phase with
  | waiting ws => exact absurd hc (hp ws)
  | reducing r => rfl
  | suppressed => rfl
  | skipped => rfl
  | committed => rfl
  | failed e => rfl

theorem step_finish_none {T S E : Type} (cfg : Config T S E) (m : Machine T S E) (i : Nat)
    (hj : m.tasks[i]? = none) : step cfg m (.finish i) = m := by
  rw [step.eq_def]
  dsimp only
  rw [hj]

theorem step_finish_ok {T S E : Type} (cfg : Config T S E) (m : Machine T S E)
    (i : Nat) (t : Req T S E) (v : T)
    (hj : m.tasks[i]? = some t) (hp : t.phase = .reducing (.ok v)) :
    step cfg m (.finish i) =
      if cfg.policy = .debounce ∧ t.skip then
        { m with tasks := m.tasks.set i { t with phase := .skipped } }
      else
        { value := v, queue := spliceRemove m.queue (t.myId.getD 0),
          resolvedIds := m.resolvedIds ++ [t.myId.getD 0], idgen := m.idgen,
          tasks := m.tasks.set i { t with phase := .committed } } := by
  rw [step.eq_def]
  dsimp only
  rw [hj]
  dsimp only
  rw [hp]

theorem step_finish_error {T S E : Type} (cfg : Config T S E) (m : Machine T S E)
    (i : Nat) (t : Req T S E) (e : E)
    (hj : m.tasks[i]? = some t) (hp : t.phase = .reducing (.error e)) :
    step cfg m (.finish i) =
      { m with tasks := m.tasks.set i { t with phase := .failed e } } := by
  rw [step.eq_def]
  dsimp only
  rw [hj]
  dsimp only
  rw [hp]

theorem step_finish_other {T S E : Type} (cfg : Config T S E) (m : Machine T S E)
    (i : Nat) (t : Req T S E)
    (hj : m.tasks[i]? = some t) (hp : ∀ r, t.phase ≠ .reducing r) :
    step cfg m (.finish i) = m := by
  rw [step.eq_def]
  dsimp only
  rw [hj]
  dsimp only
  cases hc : t.phase with
  | waiting ws => rfl
  | reducing r => exact absurd hc (hp r)
  | suppressed => rfl
  | skipped => rfl
  | committed => rfl
  | failed e => rfl

/-- Inductive invariant of the `queue` policy with a total reducer: `k`
counts the calls already committed.  Commits happen in submission order, the
subject value is the left fold of the committed prefix, the pending queue
holds exactly the ids `k, k+1, ...` in order, exactly the committed ids have
resolved, at most call `k` can be past its predecessor wait, and every later
call still waits on a contiguous id range reaching up to its own id. -/
structure QInv {T S : Type} (f : T → S → T) (v0 : T) (m : Machine T S Empty)
    (k : Nat) : Prop where
  klen : k ≤ m.tasks.length
  idg : m.idgen = m.tasks.length
  ids : ∀ (j : Nat) (t : Req T S Empty), m.tasks[j]? = some t → t.myId = some j
  res : m.resolvedIds = List.range k
  que : m.queue.map Prod.fst = List.range' k (m.tasks.length - k)
  val : m.value = List.foldl f v0 ((m.tasks.take k).map (fun t => t.action))
  done : ∀ (j : Nat) (t : Req T S Empty), m.tasks[j]? = some t → j < k →
      t.phase = .committed
  rest : ∀ (j : Nat) (t : Req T S Empty), m.tasks[j]? = some t → k ≤ j →
      (∃ r, r ≤ k ∧ r ≤ j ∧ t.phase = .waiting (List.range' r (j - r)))
      ∨ (j = k ∧ t.phase = .reducing (.ok (f m.value t.action)))

theorem take_of_set_le {A : Type} (l : List A) (i k : Nat) (a : A) (h : k ≤ i) :
    (l.set i a).take k = l.take k := by
  rw [List.set_take]
  exact List.set_eq_of_length_le (le_trans (List.length_take k l ▸ Nat.min_le_left _ _) h)

theorem take_of_append_le {A : Type} (l l2 : List A) (k : Nat) (h : k ≤ l.length) :
    (l ++ l2).take k = l.take k := by
  rw [List.take_append_eq_append_take, Nat.sub_eq_zero_of_le h]
  simp

theorem QInv_init {T S : Type} (f : T → S → T) (v0 : T) :
    QInv f v0 (Machine.init v0 : Machine T S Empty) 0 := by
  refine ⟨Nat.zero_le _, rfl, ?_, rfl, rfl, rfl, ?_, ?_⟩ <;>
    intro j t hj <;> simp [Machine.init] at hj

theorem QInv_submit {T S : Type} {f : T → S → T} {v0 : T} {m : Machine T S Empty}
    {k : Nat} (w : Nat) (h : QInv f v0 m k) (a : S) (now : Nat) :
    QInv f v0 (submit (okCfg .queue w f) m a now) k := by
  have hn := h.klen
  rw [okCfg, submit_queue_eq]
  refine ⟨?_, ?_, ?_, h.res, ?_, ?_, ?_, ?_⟩
  · simpa using Nat.le_succ_of_le hn
  · simp [h.idg]
  · intro j t hj
    rcases Nat.lt_trichotomy j m.tasks.length with hlt | heq | hgt
    · rw [List.getElem?_append_left (by simpa using hlt)] at hj
      exact h.ids j t hj
    · rw [List.getElem?_append_right (by simp [heq])] at hj
      simp [heq] at hj
      subst hj
      simp [h.idg, heq]
    · rw [List.getElem?_eq_none (by simpa using hgt)] at hj
      cases hj
  · simp only [List.map_append, List.length_append, List.map_cons, List.map_nil]
    rw [h.que, h.idg]
    have h2 : (m.tasks.length : Nat) = k + (m.tasks.length - k) := by omega
    calc List.range' k (m.tasks.length - k) ++ [m.tasks.length]
        = List.range' k (m.tasks.length - k) ++ List.range' (k + (m.tasks.length - k)) 1 := by
          rw [← h2]; rfl
      _ = List.range' k (1 + (m.tasks.length - k)) := List.range'_append_1 ..
      _ = List.range' k (m.tasks.length + (1 : Nat) - k) := by
          have h1 : 1 + (m.tasks.length - k) = m.tasks.length + 1 - k := by omega
          rw [h1]
  · rw [take_of_append_le _ _ _ hn]
    exact h.val
  · intro j t hj hjk
    rw [List.getElem?_append_left (lt_of_lt_of_le hjk hn)] at hj
    exact h.done j t hj hjk
  · intro j t hj hjk
    rcases Nat.lt_trichotomy j m.tasks.length with hlt | heq | hgt
    · rw [List.getElem?_append_left (by simpa using hlt)] at hj
      exact h.rest j t hj hjk
    · rw [List.getElem?_append_right (by simp [heq])] at hj
      simp [heq] at hj
      subst hj
      left
      exact ⟨k, le_refl k, hjk, by rw [h.que, heq]⟩
    · rw [List.getElem?_eq_none (by simpa using hgt)] at hj
      cases hj

theorem QInv_step {T S : Type} {f : T → S → T} {v0 : T} {m : Machine T S Empty}
    {k : Nat} (w : Nat) (h : QInv f v0 m k) (s : Step) :
    ∃ kk, QInv f v0 (step (okCfg .queue w f) m s) kk := by
  cases s with
  | start i =>
    cases hj : m.tasks[i]? with
    | none => rw [step_start_none _ _ _ hj]; exact ⟨k, h⟩
    | some t =>
      cases hp : t.phase with
      | waiting ws =>
        rw [step_start_waiting _ _ _ _ _ hj hp]
        by_cases hg : ws.all (fun id => m.resolvedIds.contains id) = true
        · have hik : k ≤ i := by
            by_contra hik
            have hd := h.done i t hj (Nat.lt_of_not_le hik)
            rw [hp] at hd; cases hd
          have hconf := h.rest i t hj hik
          rcases hconf with ⟨r, hrk, hri, hw⟩ | ⟨hik2, hred⟩
          · rw [hp] at hw
            have hws : ws = List.range' r (i - r) := by injection hw
            have hieq : i = k := by
              by_contra hne
              have hki : k < i := lt_of_le_of_ne hik (fun hc => hne hc.symm)
              have hkmem : k ∈ ws := by
                rw [hws, List.mem_range']
                exact ⟨k - r, by omega, by omega⟩
              have hcon := List.all_eq_true.mp hg k hkmem
              rw [h.res] at hcon
              simp [List.elem_iff, List.mem_range] at hcon
            subst hieq
            have hilen : i < m.tasks.length := (List.getElem?_eq_some.mp hj).1
            rw [if_pos hg]
            refine ⟨i, by simpa using h.klen, by simpa using h.idg, ?_, h.res,
              by simpa using h.que,
              by rw [take_of_set_le _ _ _ _ (le_refl i)]; exact h.val, ?_, ?_⟩
            · intro j u hju
              by_cases hji : j = i
              · subst hji
                rw [List.getElem?_set_self hilen] at hju
                injection hju with hju
                subst hju
                exact h.ids j t hj
              · rw [List.getElem?_set_ne (fun hc => hji hc.symm)] at hju
                exact h.ids j u hju
            · intro j u hju hjk
              rw [List.getElem?_set_ne (by omega)] at hju
              exact h.done j u hju hjk
            · intro j u hju hjk
              by_cases hji : j = i
              · subst hji
                rw [List.getElem?_set_self hilen] at hju
                injection hju with hju
                subst hju
                right
                refine ⟨rfl, ?_⟩
                simp [okCfg]
              · rw [List.getElem?_set_ne (fun hc => hji hc.symm)] at hju
                have hr2 := h.rest j u hju hjk
                rcases hr2 with ⟨r2, hr2⟩ | ⟨hji2, -⟩
                · exact Or.inl ⟨r2, hr2⟩
                · exact absurd hji2 hji
          · rw [hp] at hred; cases hred
        · rw [if_neg hg]
          exact ⟨k, h⟩
      | reducing r =>
        rw [step_start_other _ _ _ _ hj (by rw [hp]; intro ws hc; cases hc)]
        exact ⟨k, h⟩
      | suppressed =>
        rw [step_start_other _ _ _ _ hj (by rw [hp]; intro ws hc; cases hc)]
        exact ⟨k, h⟩
      | skipped =>
        rw [step_start_other _ _ _ _ hj (by rw [hp]; intro ws hc; cases hc)]
        exact ⟨k, h⟩
      | committed =>
        rw [step_start_other _ _ _ _ hj (by rw [hp]; intro ws hc; cases hc)]
        exact ⟨k, h⟩
      | failed e =>
        rw [step_start_other _ _ _ _ hj (by rw [hp]; intro ws hc; cases hc)]
        exact ⟨k, h⟩
  | finish i =>
    cases hj : m.tasks[i]? with
    | none => rw [step_finish_none _ _ _ hj]; exact ⟨k, h⟩
    | some t =>
      cases hp : t.phase with
      | reducing r =>
        have hik : k ≤ i := by
          by_contra hik
          have hd := h.done i t hj (Nat.lt_of_not_le hik)
          rw [hp] at hd; cases hd
        have hconf := h.rest i t hj hik
        rcases hconf with ⟨r2, -, -, hw⟩ | ⟨hik2, hred⟩
        · rw [hp] at hw; cases hw
        subst hik2
        rw [hp] at hred
        have hr : r = .ok (f m.value t.action) := by injection hred
        subst hr
        have hilen : i < m.tasks.length := (List.getElem?_eq_some.mp hj).1
        rw [step_finish_ok _ _ _ _ _ hj hp, if_neg (by rintro ⟨hpol, -⟩; simp [okCfg] at hpol)]
        have hid : t.myId = some i := h.ids i t hj
        refine ⟨i + 1, by simpa using hilen, by simpa using h.idg, ?_, ?_, ?_, ?_, ?_, ?_⟩
        · intro j u hju
          by_cases hji : j = i
          · subst hji
            rw [List.getElem?_set_self hilen] at hju
            injection hju with hju
            subst hju
            exact h.ids j t hj
          · rw [List.getElem?_set_ne (fun hc => hji hc.symm)] at hju
            exact h.ids j u hju
        · rw [h.res, hid]
          simp [List.range_succ]
        · have hq := h.que
          have hlen : m.tasks.length - i = (m.tasks.length - (i + 1)) + 1 := by omega
          rw [hlen, List.range'_succ] at hq
          cases hqq : m.queue with
          | nil => rw [hqq] at hq; cases hq
          | cons p qrest =>
            rw [hqq] at hq
            simp only [List.map_cons] at hq
            have hp1 : p.1 = i := by injection hq
            have hq2 : qrest.map Prod.fst = List.range' (i + 1) (m.tasks.length - (i + 1)) := by
              injection hq
            rw [hid]
            simp only [Option.getD_some]
            rw [spliceRemove]
            have hbeq : (p.1 == i) = true := by simp [hp1]
            simp only [List.findIdx?_cons, hbeq, if_true, List.eraseIdx_cons_zero,
              List.length_set]
            rw [hq2]
        · rw [h.val]
          have htake : (m.tasks.set i { t with phase := .committed }).take (i + 1)
              = m.tasks.take i ++ [{ t with phase := Phase.committed }] := by
            rw [List.take_succ, take_of_set_le _ _ _ _ (le_refl i),
              List.getElem?_set_self hilen]
            rfl
          rw [htake]
          simp
        · intro j u hju hjk
          by_cases hji : j = i
          · subst hji
            rw [List.getElem?_set_self hilen] at hju
            injection hju with hju
            subst hju
            rfl
          · rw [List.getElem?_set_ne (fun hc => hji hc.symm)] at hju
            exact h.done j u hju (by omega)
        · intro j u hju hjk
          have hji : j ≠ i := by omega
          rw [List.getElem?_set_ne (fun hc => hji hc.symm)] at hju
          have hr3 := h.rest j u hju (by omega)
          rcases hr3 with ⟨r2, hr2k, hr2j, hw⟩ | ⟨hji2, -⟩
          · exact Or.inl ⟨r2, by omega, hr2j, hw⟩
          · exact absurd hji2 hji
      | waiting ws =>
        rw [step_finish_other _ _ _ _ hj (by rw [hp]; intro r hc; cases hc)]
        exact ⟨k, h⟩
      | suppressed =>
        rw [step_finish_other _ _ _ _ hj (by rw [hp]; intro r hc; cases hc)]
        exact ⟨k, h⟩
      | skipped =>
        rw [step_finish_other _ _ _ _ hj (by rw [hp]; intro r hc; cases hc)]
        exact ⟨k, h⟩
      | committed =>
        rw [step_finish_other _ _ _ _ hj (by rw [hp]; intro r hc; cases hc)]
        exact ⟨k, h⟩
      | failed e =>
        rw [step_finish_other _ _ _ _ hj (by rw [hp]; intro r hc; cases hc)]
        exact ⟨k, h⟩

theorem QInv_exec {T S : Type} {f : T → S → T} {v0 : T} (w : Nat)
    (evs : List (Event S)) {m : Machine T S Empty} {k : Nat} (h : QInv f v0 m k) :
    ∃ kk, QInv f v0 (exec (okCfg .queue w f) m evs) kk := by
  induction evs generalizing m k with
  | nil => exact ⟨k, h⟩
  | cons e evs ih =>
    cases e with
    | sub a now => exact ih (QInv_submit w h a now)
    | act s =>
      obtain ⟨kk, hkk⟩ := QInv_step w h s
      exact ih hkk

/-- C1: under policy `queue` with reducer `f`, after any interleaving of
`update` submissions and event-loop steps in which every submitted call has
completed (all returned promises resolved), the subject's value is the left
fold of the reducer over the actions in submission order — regardless of the
relative completion order chosen by the schedule for the asynchronous
reducer invocations. -/
theorem queue_commits_in_submission_order {T S : Type} (f : T → S → T) (w : Nat)
    (v0 : T) (evs : List (Event S))
    (hdone : ∀ t ∈ (exec (okCfg .queue w f) (Machine.init v0) evs).tasks,
      t.phase = .committed) :
    (exec (okCfg .queue w f) (Machine.init v0) evs).value
      = List.foldl f v0 ((exec (okCfg .queue w f) (Machine.init v0) evs).tasks.map
          (fun t => t.action)) := by
  obtain ⟨k, hk⟩ := QInv_exec w evs (QInv_init f v0)
  set mf := exec (okCfg .queue w f) (Machine.init v0) evs with hmf
  have hkl : k = mf.tasks.length := by
    by_contra hne
    have hklt : k < mf.tasks.length := lt_of_le_of_ne hk.klen hne
    set t := mf.tasks.get ⟨k, hklt⟩ with hts
    have ht : mf.tasks[k]? = some t := by
      rw [List.getElem?_eq_some_iff]
      exact ⟨hklt, rfl⟩
    have hcom : t.phase = .committed := hdone t (List.getElem?_mem ht)
    have hr := hk.rest k t ht (le_refl k)
    rcases hr with ⟨r, -, -, hw⟩ | ⟨-, hred⟩
    · rw [hcom] at hw; cases hw
    · rw [hcom] at hred; cases hred
  have hv := hk.val
  rw [hkl, List.take_length] at hv
  exact hv

/-- Closed instance of `queue_commits_in_submission_order`: two submissions
followed by a schedule that completes both calls; the final value is
`(0 + 1) + 2 = 3`, the fold over the actions in submission order. -/
theorem queue_commits_in_submission_order_w :
    (∀ t ∈ (exec (okCfg .queue 10 (fun t s => t + s)) (Machine.init 0)
        [.sub 1 0, .sub 2 0, .act (.start 0), .act (.finish 0),
         .act (.start 1), .act (.finish 1)]).tasks, t.phase = .committed)
    ∧ (exec (okCfg .queue 10 (fun t s => t + s)) (Machine.init 0)
        [.sub 1 0, .sub 2 0, .act (.start 0), .act (.finish 0),
         .act (.start 1), .act (.finish 1)]).value
      = List.foldl (fun t s => t + s) 0
          ((exec (okCfg .queue 10 (fun t s => t + s)) (Machine.init 0)
            [.sub 1 0, .sub 2 0, .act (.start 0), .act (.finish 0),
             .act (.start 1), .act (.finish 1)]).tasks.map (fun t => t.action)) :=
  ⟨by decide, queue_commits_in_submission_order (fun t s => t + s) 10 0 _ (by decide)⟩

theorem submitAll_cons {T S E : Type} (cfg : Config T S E) (m : Machine T S E)
    (a : S) (as : List S) (t0 : Nat) :
    submitAll cfg m (a :: as) t0 = submitAll cfg (submit cfg m a t0) as t0 := rfl

theorem throttle_suppress_rest {T S : Type} (f : T → S → T) (w : Nat) (t0 : Nat)
    (as : List S) :
    ∀ (m : Machine T S Empty), m.queue.length > 0 → (m.queue.headD (0, 0)).2 = t0 →
    submitAll (okCfg .throttle w f) m as t0 =
      { m with tasks := m.tasks ++ as.map (fun x => ⟨x, t0, none, false, .suppressed⟩) } := by
  induction as with
  | nil => intro m hq hh; simp [submitAll]
  | cons a as ih =>
    intro m hq hh
    rw [submitAll_cons, okCfg,
      submit_throttle_gate_eq _ _ _ _ _ ⟨hq, by rw [hh]; omega⟩]
    rw [← okCfg]
    rw [ih _ (by simpa using hq) (by simpa using hh)]
    simp

theorem throttle_burst {T S : Type} (f : T → S → T) (w : Nat) (v0 : T) (t0 : Nat)
    (a : S) (rest : List S) :
    submitAll (okCfg .throttle w f) (Machine.init v0) (a :: rest) t0 =
      { value := v0, queue := [(0, t0)], resolvedIds := [], idgen := 1,
        tasks := ⟨a, t0, some 0, false, .reducing (.ok (f v0 a))⟩ ::
          rest.map (fun x => ⟨x, t0, none, false, .suppressed⟩) } := by
  rw [submitAll_cons, okCfg, submit_throttle_go_eq _ _ _ _ _ (by simp [Machine.init])]
  rw [← okCfg, throttle_suppress_rest f w t0 rest _ (by simp [Machine.init]) (by simp [Machine.init])]
  simp [Machine.init]

/-- Run-phase invariant for a throttle burst: the first call either still has
its reducer pending (value untouched, its descriptor queued, nothing
resolved) or has committed `f v0 a` (descriptor spliced out, resolver
fired); every later call was suppressed at the gate, with no descriptor. -/
structure TIv {T S : Type} (f : T → S → T) (v0 : T) (a : S) (t0 : Nat)
    (M : Machine T S Empty) : Prop where
  len : 0 < M.tasks.length
  first : ∀ (t : Req T S Empty), M.tasks[0]? = some t →
      t.myId = some 0 ∧ t.action = a ∧ t.skip = false ∧
      ((t.phase = .reducing (.ok (f v0 a)) ∧ M.value = v0 ∧ M.queue = [(0, t0)]
          ∧ M.resolvedIds = [])
       ∨ (t.phase = .committed ∧ M.value = f v0 a ∧ M.queue = [] ∧ M.resolvedIds = [0]))
  others : ∀ (i : Nat) (t : Req T S Empty), M.tasks[i]? = some t → 1 ≤ i →
      t.phase = .suppressed ∧ t.myId = none

theorem TIv_burst {T S : Type} (f : T → S → T) (w : Nat) (v0 : T) (t0 : Nat)
    (a : S) (rest : List S) :
    TIv f v0 a t0 (submitAll (okCfg .throttle w f) (Machine.init v0) (a :: rest) t0) := by
  rw [throttle_burst]
  refine ⟨by simp, ?_, ?_⟩
  · intro t ht
    simp at ht
    subst ht
    exact ⟨rfl, rfl, rfl, Or.inl ⟨rfl, rfl, rfl, rfl⟩⟩
  · intro i t ht hi
    rcases i with - | i
    · omega
    · simp at ht
      obtain ⟨x, -, hx⟩ := ht
      rw [← hx]
      exact ⟨rfl, rfl⟩

theorem TIv_step {T S : Type} {f : T → S → T} {v0 : T} {a : S} {t0 : Nat}
    {M : Machine T S Empty} (w : Nat) (h : TIv f v0 a t0 M) (s : Step) :
    TIv f v0 a t0 (step (okCfg .throttle w f) M s) := by
  cases s with
  | start i =>
    cases hj : M.tasks[i]? with
    | none => rw [step_start_none _ _ _ hj]; exact h
    | some t =>
      have hnw : ∀ ws, t.phase ≠ .waiting ws := by
        rcases i with - | i
        · have h1 := h.first t hj
          rcases h1.2.2.2 with ⟨hp, -⟩ | ⟨hp, -⟩ <;> rw [hp] <;> intro ws hc <;> cases hc
        · have h2 := (h.others (i + 1) t hj (by omega)).1
          rw [h2]; intro ws hc; cases hc
      rw [step_start_other _ _ _ _ hj hnw]; exact h
  | finish i =>
    cases hj : M.tasks[i]? with
    | none => rw [step_finish_none _ _ _ hj]; exact h
    | some t =>
      rcases i with - | i
      · have h1 := h.first t hj
        rcases h1.2.2.2 with ⟨hp, hv, hq, hr⟩ | ⟨hp, -⟩
        · rw [step_finish_ok _ _ _ _ _ hj hp,
            if_neg (by rintro ⟨hpol, -⟩; simp [okCfg] at hpol)]
          have h0 : 0 < M.tasks.length := h.len
          refine ⟨by simpa using h0, ?_, ?_⟩
          · intro u hu
            rw [List.getElem?_set_self h0] at hu
            injection hu with hu
            subst hu
            refine ⟨h1.1, h1.2.1, h1.2.2.1, Or.inr ⟨rfl, rfl, ?_, ?_⟩⟩
            · rw [hq, h1.1]
              rfl
            · rw [hr, h1.1]
              rfl
          · intro i u hu hi
            rw [List.getElem?_set_ne (by omega)] at hu
            exact h.others i u hu hi
        · rw [step_finish_other _ _ _ _ hj (by rw [hp]; intro r hc; cases hc)]
          exact h
      · have h2 := (h.others (i + 1) t hj (by omega)).1
        rw [step_finish_other _ _ _ _ hj (by rw [h2]; intro r hc; cases hc)]
        exact h

theorem TIv_run {T S : Type} {f : T → S → T} {v0 : T} {a : S} {t0 : Nat}
    {M : Machine T S Empty} (w : Nat) (h : TIv f v0 a t0 M) (steps : List Step) :
    TIv f v0 a t0 (run (okCfg .throttle w f) M steps) := by
  induction steps generalizing M with
  | nil => exact h
  | cons s steps ih => exact ih (TIv_step w h s)

/-- C5: under policy `throttle`, of a burst of calls submitted at the same
timestamp (so within any window — the source default is
`Number.MAX_SAFE_INTEGER`), once every call has completed only the first
committed: the subject's value is `f v0 a` for the first action `a`, the
first call's phase is `committed`, and every later call was suppressed at
the gate — it resolved immediately (phase `suppressed` is assigned at
submission), ran no reducer, created no descriptor (`myId = none`) and
committed nothing. -/
theorem throttle_first_wins {T S : Type} (f : T → S → T) (w : Nat) (v0 : T)
    (t0 : Nat) (a : S) (rest : List S) (steps : List Step)
    (hdone : ∀ t ∈ (run (okCfg .throttle w f)
        (submitAll (okCfg .throttle w f) (Machine.init v0) (a :: rest) t0) steps).tasks,
      t.phase = .committed ∨ t.phase = .suppressed) :
    (run (okCfg .throttle w f)
        (submitAll (okCfg .throttle w f) (Machine.init v0) (a :: rest) t0) steps).value
      = f v0 a
    ∧ (∀ (t : Req T S Empty), (run (okCfg .throttle w f)
        (submitAll (okCfg .throttle w f) (Machine.init v0) (a :: rest) t0)
          steps).tasks[0]? = some t → t.phase = .committed)
    ∧ (∀ (i : Nat) (t : Req T S Empty), (run (okCfg .throttle w f)
        (submitAll (okCfg .throttle w f) (Machine.init v0) (a :: rest) t0)
          steps).tasks[i]? = some t → 1 ≤ i →
        t.phase = .suppressed ∧ t.myId = none) := by
  have hk := TIv_run w (TIv_burst f w v0 t0 a rest) steps
  set M := run (okCfg .throttle w f)
    (submitAll (okCfg .throttle w f) (Machine.init v0) (a :: rest) t0) steps with hM
  have hex : M.tasks[0]? = some (M.tasks.get ⟨0, hk.len⟩) := by
    rw [List.getElem?_eq_some_iff]
    exact ⟨hk.len, rfl⟩
  have h1 := hk.first _ hex
  have hco : (M.tasks.get ⟨0, hk.len⟩).phase = .committed := by
    have hd := hdone _ (List.getElem?_mem hex)
    rcases hd with hd | hd
    · exact hd
    · rcases h1.2.2.2 with ⟨hp, -⟩ | ⟨hp, -⟩
      · rw [hp] at hd; cases hd
      · rw [hp] at hd; cases hd
  rcases h1.2.2.2 with ⟨hp, -⟩ | ⟨-, hv, -, -⟩
  · rw [hp] at hco; cases hco
  · refine ⟨hv, ?_, fun i t ht hi => hk.others i t ht hi⟩
    intro t ht
    rw [hex] at ht
    injection ht with ht
    rw [← ht]
    exact hco

/-- Closed instance of `throttle_first_wins`: three concurrent submissions,
the first finishing after the others were suppressed; the value is
`f 0 1 = 1`. -/
theorem throttle_first_wins_w :
    (∀ t ∈ (run (okCfg .throttle 5 (fun t s => t + s))
        (submitAll (okCfg .throttle 5 (fun t s => t + s)) (Machine.init 0) [1, 2, 3] 7)
        [.finish 0]).tasks, t.phase = .committed ∨ t.phase = .suppressed)
    ∧ ((run (okCfg .throttle 5 (fun t s => t + s))
        (submitAll (okCfg .throttle 5 (fun t s => t + s)) (Machine.init 0) [1, 2, 3] 7)
        [.finish 0]).value = (fun t s => t + s) 0 1
      ∧ (∀ (t : Req Nat Nat Empty), (run (okCfg .throttle 5 (fun t s => t + s))
          (submitAll (okCfg .throttle 5 (fun t s => t + s)) (Machine.init 0) [1, 2, 3] 7)
          [.finish 0]).tasks[0]? = some t → t.phase = .committed)
      ∧ (∀ (i : Nat) (t : Req Nat Nat Empty), (run (okCfg .throttle 5 (fun t s => t + s))
          (submitAll (okCfg .throttle 5 (fun t s => t + s)) (Machine.init 0) [1, 2, 3] 7)
          [.finish 0]).tasks[i]? = some t → 1 ≤ i →
          t.phase = .suppressed ∧ t.myId = none)) :=
  ⟨by decide, throttle_first_wins (fun t s => t + s) 5 0 7 1 [2, 3] [.finish 0] (by decide)⟩

/-- Task list produced by a back-to-back debounce burst: every call whose
descriptor was still in the queue when its successor arrived got marked
`skip`; the final call stays unmarked.  Each reducer was invoked at its own
submission, reading the untouched initial value `v0`. -/
def chain {T S : Type} (f : T → S → T) (v0 : T) (t0 : Nat) :
    Nat → List S → List (Req T S Empty)
  | _, [] => []
  | j, [b] => [⟨b, t0, some j, false, .reducing (.ok (f v0 b))⟩]
  | j, b :: c :: more =>
      ⟨b, t0, some j, true, .reducing (.ok (f v0 b))⟩ :: chain f v0 t0 (j + 1) (c :: more)

/-- The marked (superseded) segment of a debounce burst. -/
def skipChain {T S : Type} (f : T → S → T) (v0 : T) (t0 : Nat) :
    Nat → List S → List (Req T S Empty)
  | _, [] => []
  | j, x :: xs =>
      ⟨x, t0, some j, true, .reducing (.ok (f v0 x))⟩ :: skipChain f v0 t0 (j + 1) xs

theorem chain_append {T S : Type} (f : T → S → T) (v0 : T) (t0 : Nat) (alast : S) :
    ∀ (front : List S) (j : Nat),
    chain f v0 t0 j (front ++ [alast]) =
      skipChain f v0 t0 j front
        ++ [⟨alast, t0, some (j + front.length), false, .reducing (.ok (f v0 alast))⟩] := by
  intro front
  induction front with
  | nil => intro j; simp [chain, skipChain]
  | cons x front ih =>
    intro j
    cases hfa : front ++ [alast] with
    | nil => exact absurd hfa (by simp)
    | cons c m =>
      have hch : chain f v0 t0 j ((x :: front) ++ [alast])
          = ⟨x, t0, some j, true, .reducing (.ok (f v0 x))⟩ :: chain f v0 t0 (j + 1) (c :: m) := by
        simp only [List.cons_append, hfa, chain]
      rw [hch, ← hfa, ih (j + 1)]
      simp [skipChain]
      omega

theorem debounce_go {T S : Type} (f : T → S → T) (w : Nat) (v0 : T) (t0 : Nat)
    (hw : 0 < w) (rem : List S) :
    ∀ (j : Nat) (ts : List (Req T S Empty)) (b : S),
    (∀ t ∈ ts, ∃ i, i < j ∧ t.myId = some i) →
    submitAll (okCfg .debounce w f)
      { value := v0, queue := [(j, t0)], resolvedIds := [], idgen := j + 1,
        tasks := ts ++ [⟨b, t0, some j, false, .reducing (.ok (f v0 b))⟩] } rem t0 =
      { value := v0, queue := [(j + rem.length, t0)], resolvedIds := [],
        idgen := j + rem.length + 1, tasks := ts ++ chain f v0 t0 j (b :: rem) } := by
  induction rem with
  | nil =>
    intro j ts b hts
    simp [submitAll, chain]
  | cons c rem ih =>
    intro j ts b hts
    rw [submitAll_cons, okCfg, submit_debounce_eq, ← okCfg]
    have hmark : (ts ++ [(⟨b, t0, some j, false, .reducing (.ok (f v0 b))⟩ : Req T S Empty)]).map
        (fun t => if List.any [(j, t0)] (fun p => t.myId == some p.1 && decide (t0 - p.2 < w))
          then { t with skip := true } else t)
        = ts ++ [⟨b, t0, some j, true, .reducing (.ok (f v0 b))⟩] := by
      rw [List.map_append]
      have hts2 : ts.map (fun t =>
          if List.any [(j, t0)] (fun p => t.myId == some p.1 && decide (t0 - p.2 < w))
          then { t with skip := true } else t) = ts := by
        rw [List.map_congr_left ?he, List.map_id]
        case he =>
          intro t ht
          obtain ⟨i, hij, hmy⟩ := hts t ht
          have hcond : List.any [(j, t0)] (fun p => t.myId == some p.1
              && decide (t0 - p.2 < w)) = false := by
            simp [hmy]
            omega
          rw [hcond]
          rfl
      rw [hts2]
      have hself : List.any [(j, t0)] (fun p =>
          (some j : Option Nat) == some p.1 && decide (t0 - p.2 < w)) = true := by
        simp
        omega
      simp only [List.map_cons, List.map_nil, hself, if_true]
    rw [hmark]
    have hstep := ih (j + 1) (ts ++ [⟨b, t0, some j, true, .reducing (.ok (f v0 b))⟩]) c ?hts
    case hts =>
      intro t ht
      rcases List.mem_append.mp ht with hl | hr
      · obtain ⟨i, hij, hmy⟩ := hts t hl
        exact ⟨i, by omega, hmy⟩
      · simp at hr
        subst hr
        exact ⟨j, by omega, rfl⟩
    have hch : chain f v0 t0 j (b :: c :: rem)
        = ⟨b, t0, some j, true, .reducing (.ok (f v0 b))⟩ :: chain f v0 t0 (j + 1) (c :: rem) := by
      simp [chain]
    dsimp only
    rw [hstep, hch]
    simp only [List.length_cons, List.append_assoc, List.singleton_append]
    have e1 : j + 1 + rem.length = j + (rem.length + 1) := by omega
    rw [e1]

theorem debounce_burst {T S : Type} (f : T → S → T) (w : Nat) (v0 : T) (t0 : Nat)
    (hw : 0 < w) (front : List S) (alast : S) :
    submitAll (okCfg .debounce w f) (Machine.init v0) (front ++ [alast]) t0 =
      { value := v0, queue := [(front.length, t0)], resolvedIds := [],
        idgen := front.length + 1,
        tasks := skipChain f v0 t0 0 front
          ++ [⟨alast, t0, some front.length, false, .reducing (.ok (f v0 alast))⟩] } := by
  cases hfa : front ++ [alast] with
  | nil => exact absurd hfa (by simp)
  | cons c rem =>
    rw [submitAll_cons, okCfg, submit_debounce_eq, ← okCfg]
    have hinit : ((Machine.init v0 : Machine T S Empty).tasks).map
        (fun t => if List.any (Machine.init v0 : Machine T S Empty).queue
          (fun p => t.myId == some p.1 && decide (t0 - p.2 < w))
          then { t with skip := true } else t) = [] := rfl
    rw [hinit]
    have hgo := debounce_go f w v0 t0 hw rem 0 [] c (by intro t ht; simp at ht)
    simp only [Machine.init, List.nil_append, Nat.zero_add] at hgo ⊢
    rw [hgo, ← hfa, chain_append]
    have hlen : rem.length = front.length := by
      have h1 : (front ++ [alast]).length = front.length + 1 := by simp
      rw [hfa] at h1
      simp at h1
      omega
    rw [hlen]
    simp

theorem skipChain_length {T S : Type} (f : T → S → T) (v0 : T) (t0 : Nat) :
    ∀ (front : List S) (j : Nat), (skipChain f v0 t0 j front).length = front.length := by
  intro front
  induction front with
  | nil => intro j; rfl
  | cons x xs ih => intro j; simp [skipChain, ih (j + 1)]

theorem skipChain_get {T S : Type} (f : T → S → T) (v0 : T) (t0 : Nat) :
    ∀ (front : List S) (j i : Nat) (t : Req T S Empty),
    (skipChain f v0 t0 j front)[i]? = some t →
    t.skip = true ∧ t.phase = .reducing (.ok (f v0 t.action)) := by
  intro front
  induction front with
  | nil => intro j i t ht; simp [skipChain] at ht
  | cons x xs ih =>
    intro j i t ht
    rcases i with - | i
    · simp [skipChain] at ht
      rw [← ht]
      exact ⟨rfl, rfl⟩
    · simp only [skipChain, List.getElem?_cons_succ] at ht
      exact ih (j + 1) i t ht

/-- Run-phase invariant for a debounce burst with `n` superseded calls and
final action `alast`: every superseded call keeps `skip = true` and is
either still reducing its own action against the untouched initial value or
already discarded (`skipped`, its caller resolved); the final call is either
reducing (value untouched, descriptor queued) or committed
(`value = f v0 alast`, descriptor spliced, resolver fired). -/
structure DIv {T S : Type} (f : T → S → T) (v0 : T) (alast : S) (t0 n : Nat)
    (M : Machine T S Empty) : Prop where
  len : M.tasks.length = n + 1
  front_t : ∀ (i : Nat) (t : Req T S Empty), M.tasks[i]? = some t → i < n →
      t.skip = true ∧
      (t.phase = .reducing (.ok (f v0 t.action)) ∨ t.phase = .skipped)
  last_t : ∀ (t : Req T S Empty), M.tasks[n]? = some t →
      t.myId = some n ∧ t.skip = false ∧
      ((t.phase = .reducing (.ok (f v0 alast)) ∧ M.value = v0 ∧ M.queue = [(n, t0)]
          ∧ M.resolvedIds = [])
       ∨ (t.phase = .committed ∧ M.value = f v0 alast ∧ M.queue = []
          ∧ M.resolvedIds = [n]))

theorem DIv_burst {T S : Type} (f : T → S → T) (w : Nat) (v0 : T) (t0 : Nat)
    (hw : 0 < w) (front : List S) (alast : S) :
    DIv f v0 alast t0 front.length
      (submitAll (okCfg .debounce w f) (Machine.init v0) (front ++ [alast]) t0) := by
  rw [debounce_burst f w v0 t0 hw]
  have hsl := skipChain_length f v0 t0 front 0
  refine ⟨by simp [hsl], ?_, ?_⟩
  · intro i t ht hi
    rw [List.getElem?_append_left (by rw [hsl]; exact hi)] at ht
    have hsg := skipChain_get f v0 t0 front 0 i t ht
    exact ⟨hsg.1, Or.inl hsg.2⟩
  · intro t ht
    rw [List.getElem?_append_right (by rw [hsl]), hsl] at ht
    simp at ht
    rw [← ht]
    exact ⟨rfl, rfl, Or.inl ⟨rfl, rfl, rfl, rfl⟩⟩

theorem DIv_step {T S : Type} {f : T → S → T} {v0 : T} {alast : S} {t0 n : Nat}
    {M : Machine T S Empty} (w : Nat) (h : DIv f v0 alast t0 n M) (s : Step) :
    DIv f v0 alast t0 n (step (okCfg .debounce w f) M s) := by
  cases s with
  | start i =>
    cases hj : M.tasks[i]? with
    | none => rw [step_start_none _ _ _ hj]; exact h
    | some t =>
      have hnw : ∀ ws, t.phase ≠ .waiting ws := by
        rcases Nat.lt_trichotomy i n with hi | hi | hi
        · rcases (h.front_t i t hj hi).2 with hp | hp <;> rw [hp] <;> intro ws hc <;> cases hc
        · subst hi
          rcases (h.last_t t hj).2.2 with ⟨hp, -⟩ | ⟨hp, -⟩ <;> rw [hp] <;>
            intro ws hc <;> cases hc
        · have hnone : M.tasks[i]? = none := List.getElem?_eq_none (by rw [h.len]; omega)
          rw [hnone] at hj
          cases hj
      rw [step_start_other _ _ _ _ hj hnw]
      exact h
  | finish i =>
    cases hj : M.tasks[i]? with
    | none => rw [step_finish_none _ _ _ hj]; exact h
    | some t =>
      rcases Nat.lt_trichotomy i n with hi | hi | hi
      · have hf := h.front_t i t hj hi
        rcases hf.2 with hp | hp
        · rw [step_finish_ok _ _ _ _ _ hj hp, if_pos (by exact ⟨by simp [okCfg], hf.1⟩)]
          have hilen : i < M.tasks.length := (List.getElem?_eq_some.mp hj).1
          refine ⟨by simpa using h.len, ?_, ?_⟩
          · intro i2 u hu hi2
            by_cases hii : i2 = i
            · subst hii
              rw [List.getElem?_set_self hilen] at hu
              injection hu with hu
              subst hu
              exact ⟨hf.1, Or.inr rfl⟩
            · rw [List.getElem?_set_ne (fun hc => hii hc.symm)] at hu
              exact h.front_t i2 u hu hi2
          · intro u hu
            rw [List.getElem?_set_ne (by omega)] at hu
            exact h.last_t u hu
        · rw [step_finish_other _ _ _ _ hj (by rw [hp]; intro r hc; cases hc)]
          exact h
      · subst hi
        have hl := h.last_t t hj
        rcases hl.2.2 with ⟨hp, hv, hq, hr⟩ | ⟨hp, -⟩
        · rw [step_finish_ok _ _ _ _ _ hj hp, if_neg (by rw [hl.2.1]; rintro ⟨-, hc⟩; cases hc)]
          have hilen : i < M.tasks.length := (List.getElem?_eq_some.mp hj).1
          refine ⟨by simpa using h.len, ?_, ?_⟩
          · intro i2 u hu hi2
            rw [List.getElem?_set_ne (by omega)] at hu
            exact h.front_t i2 u hu hi2
          · intro u hu
            rw [List.getElem?_set_self hilen] at hu
            injection hu with hu
            subst hu
            refine ⟨hl.1, hl.2.1, Or.inr ⟨rfl, rfl, ?_, ?_⟩⟩
            · rw [hq, hl.1]
              simp [spliceRemove]
            · rw [hr, hl.1]
              simp
        · rw [step_finish_other _ _ _ _ hj (by rw [hp]; intro r hc; cases hc)]
          exact h
      · have hnone : M.tasks[i]? = none := List.getElem?_eq_none (by rw [h.len]; omega)
        rw [hnone] at hj
        cases hj

theorem DIv_run {T S : Type} {f : T → S → T} {v0 : T} {alast : S} {t0 n : Nat}
    {M : Machine T S Empty} (w : Nat) (h : DIv f v0 alast t0 n M) (steps : List Step) :
    DIv f v0 alast t0 n (run (okCfg .debounce w f) M steps) := by
  induction steps generalizing M with
  | nil => exact h
  | cons s steps ih => exact ih (DIv_step w h s)

/-- C4: under policy `debounce` with a positive window (the source default is
`Number.MAX_SAFE_INTEGER`), of a burst of calls submitted at the same
timestamp only the last commits.  Once every call has completed, the
subject's value is `f v0 alast` — the reducer applied once to the initial
value and the last action — every superseded call is in phase `skipped`
(marked `skip`, its reducer result discarded, never committed, its async
function returned so its caller observed completion), and the last call is
`committed`. -/
theorem debounce_last_wins {T S : Type} (f : T → S → T) (w : Nat) (v0 : T)
    (t0 : Nat) (front : List S) (alast : S) (steps : List Step) (hw : 0 < w)
    (hdone : ∀ t ∈ (run (okCfg .debounce w f)
        (submitAll (okCfg .debounce w f) (Machine.init v0) (front ++ [alast]) t0)
        steps).tasks, t.phase = .skipped ∨ t.phase = .committed) :
    (run (okCfg .debounce w f)
        (submitAll (okCfg .debounce w f) (Machine.init v0) (front ++ [alast]) t0)
        steps).value = f v0 alast
    ∧ (∀ (i : Nat) (t : Req T S Empty), (run (okCfg .debounce w f)
        (submitAll (okCfg .debounce w f) (Machine.init v0) (front ++ [alast]) t0)
        steps).tasks[i]? = some t → i < front.length → t.phase = .skipped)
    ∧ (∀ (t : Req T S Empty), (run (okCfg .debounce w f)
        (submitAll (okCfg .debounce w f) (Machine.init v0) (front ++ [alast]) t0)
        steps).tasks[front.length]? = some t → t.phase = .committed) := by
  have hk := DIv_run w (DIv_burst f w v0 t0 hw front alast) steps
  set M := run (okCfg .debounce w f)
    (submitAll (okCfg .debounce w f) (Machine.init v0) (front ++ [alast]) t0) steps
    with hM
  have hnlen : front.length < M.tasks.length := by rw [hk.len]; omega
  have hex : M.tasks[front.length]? = some (M.tasks.get ⟨front.length, hnlen⟩) := by
    rw [List.getElem?_eq_some_iff]
    exact ⟨hnlen, rfl⟩
  have hl := hk.last_t _ hex
  have hco : (M.tasks.get ⟨front.length, hnlen⟩).phase = .committed := by
    have hd := hdone _ (List.getElem?_mem hex)
    rcases hd with hd | hd
    · rcases hl.2.2 with ⟨hp, -⟩ | ⟨hp, -⟩ <;> rw [hp] at hd <;> cases hd
    · exact hd
  rcases hl.2.2 with ⟨hp, -⟩ | ⟨-, hv, -, -⟩
  · rw [hp] at hco; cases hco
  · refine ⟨hv, ?_, ?_⟩
    · intro i t ht hi
      have hd := hdone t (List.getElem?_mem ht)
      rcases hd with hd | hd
      · exact hd
      · rcases (hk.front_t i t ht hi).2 with hp2 | hp2 <;> rw [hd] at hp2 <;> cases hp2
    · intro t ht
      rw [hex] at ht
      injection ht with ht
      rw [← ht]
      exact hco

/-- Closed instance of `debounce_last_wins`: actions `[1, 2]` then `3`, the
skipped reducers finishing after the live one; the value is `f 0 3 = 3`. -/
theorem debounce_last_wins_w :
    (0 < 5 ∧ ∀ t ∈ (run (okCfg .debounce 5 (fun t s => t + s))
        (submitAll (okCfg .debounce 5 (fun t s => t + s)) (Machine.init 0) ([1, 2] ++ [3]) 7)
        [.finish 2, .finish 0, .finish 1]).tasks,
      t.phase = .skipped ∨ t.phase = .committed)
    ∧ ((run (okCfg .debounce 5 (fun t s => t + s))
        (submitAll (okCfg .debounce 5 (fun t s => t + s)) (Machine.init 0) ([1, 2] ++ [3]) 7)
        [.finish 2, .finish 0, .finish 1]).value = (fun t s => t + s) 0 3
      ∧ (∀ (i : Nat) (t : Req Nat Nat Empty), (run (okCfg .debounce 5 (fun t s => t + s))
          (submitAll (okCfg .debounce 5 (fun t s => t + s)) (Machine.init 0)
            ([1, 2] ++ [3]) 7)
          [.finish 2, .finish 0, .finish 1]).tasks[i]? = some t →
          i < [1, 2].length → t.phase = .skipped)
      ∧ (∀ (t : Req Nat Nat Empty), (run (okCfg .debounce 5 (fun t s => t + s))
          (submitAll (okCfg .debounce 5 (fun t s => t + s)) (Machine.init 0)
            ([1, 2] ++ [3]) 7)
          [.finish 2, .finish 0, .finish 1]).tasks[[1, 2].length]? = some t →
          t.phase = .committed)) :=
  ⟨⟨by decide, by decide⟩,
    debounce_last_wins (fun t s => t + s) 5 0 7 [1, 2] 3
      [.finish 2, .finish 0, .finish 1] (by decide) (by decide)⟩

/-- Configuration of the C3 scenario: policy `queue` and a reducer that
rejects on action `1` and otherwise adds the action to the state. -/
def cfgC3 : Config Nat Nat Unit :=
  ⟨.queue, 10, fun t s => if s = 1 then .error () else .ok (t + s)⟩

/-- Machine after `update(1)` and `update(2)` were submitted and the first
call's reducer ran and rejected: the async function rethrew before the
descriptor splice and before `resolver` fired. -/
def mC3 : Machine Nat Nat Unit :=
  exec cfgC3 (Machine.init 0) [.sub 1 0, .sub 2 0, .act (.start 0), .act (.finish 0)]

theorem mC3_step_fix : ∀ (s : Step), step cfgC3 mC3 s = mC3 := by
  intro s
  have hlen : mC3.tasks.length = 2 := rfl
  cases s with
  | start i =>
    rcases i with - | i
    · rfl
    · rcases i with - | i
      · rfl
      · exact step_start_none cfgC3 mC3 (i + 2) (List.getElem?_eq_none (by omega))
  | finish i =>
    rcases i with - | i
    · rfl
    · rcases i with - | i
      · rfl
      · exact step_finish_none cfgC3 mC3 (i + 2) (List.getElem?_eq_none (by omega))

theorem mC3_run_fix : ∀ (steps : List Step), run cfgC3 mC3 steps = mC3 := by
  intro steps
  induction steps with
  | nil => rfl
  | cons s steps ih =>
    show run cfgC3 (step cfgC3 mC3 s) steps = mC3
    rw [mC3_step_fix s]
    exact ih

/-- C3: evaluation of the code at the failing input.  After `update(1)`
rejects under policy `queue`, the rejection did reach that caller (the first
call's phase is `failed`), but its descriptor is still in the queue
(`queue = [(0, 0), (1, 0)]`) and its resolver never fired
(`resolvedIds = []`); consequently, for every possible continuation of the
event loop, the second call stays suspended on `Promise.all` of its
predecessor (`waiting [0]`), never runs its reducer and never commits — the
subject's value stays `0` forever.  This contradicts the claim that the
failed call's descriptor is removed and its completion signal fired so that
queue successors still run. -/
theorem failed_update_blocks_queue :
    mC3.tasks[0]? = some ⟨1, 0, some 0, false, .failed ()⟩
    ∧ mC3.queue = [(0, 0), (1, 0)]
    ∧ mC3.resolvedIds = []
    ∧ ∀ (steps : List Step),
        (run cfgC3 mC3 steps).tasks[1]? = some ⟨2, 0, some 1, false, .waiting [0]⟩
        ∧ (run cfgC3 mC3 steps).value = 0 := by
  refine ⟨rfl, rfl, rfl, ?_⟩
  intro steps
  rw [mC3_run_fix steps]
  exact ⟨rfl, rfl⟩

end Atoms

namespace Hydration

/-- Modelled from the spec: the persistence pipeline's update gate and
replay (spec section 4.4, steps 3 and 5).  The atoms source under `src/`
predates this machinery — it has no hydration-in-progress flag and no
buffer; only the test suite exercises the behaviour — so the pipeline state
is taken from the spec's words: a hydration-in-progress flag, a buffer of
update requests received while hydration is pending (arrival order), the
subject's current value, and the ordered log of external-store writes. -/
structure PState (T S : Type) where
  hydrating : Bool
  buffer : List S
  value : T
  writes : List T

/-- Modelled from the spec: committing a value to the stateful stream
triggers a write-back unless hydration is still in progress (write-back is
suppressed during hydration). -/
def commit {T S : Type} (st : PState T S) (v : T) : PState T S :=
  { st with
    value := v,
    writes := if st.hydrating then st.writes else st.writes ++ [v] }

/-- Modelled from the spec: the atom's update entry point behind the gate —
while hydration-in-progress is true the request is appended to the buffer
and nothing else happens (no scheduler, no commit, no persistence write);
otherwise the reducer output is committed. -/
def update {T S : Type} (f : T → S → T) (st : PState T S) (a : S) : PState T S :=
  if st.hydrating then { st with buffer := st.buffer ++ [a] }
  else commit st (f st.value a)

/-- Modelled from the spec: when the asynchronous deserialize transform
resolves with the hydrated value `h`, the pipeline commits `h` (still before
the flag is cleared, so this commit is not written back), sets
hydration-in-progress to false, and then replays every buffered request in
arrival order, each applying the reducer to the now-hydrated state. -/
def resolveHydration {T S : Type} (f : T → S → T) (st : PState T S) (h : T) :
    PState T S :=
  let st1 := commit st h
  (st.buffer).foldl (update f) { st1 with hydrating := false, buffer := [] }

/-- Pipeline state at construction for an atom whose stored record needs an
asynchronous deserialize: the subject still holds the original initial
value, hydration is pending, nothing is buffered, nothing was written. -/
def startState {T S : Type} (v0 : T) : PState T S :=
  { hydrating := true, buffer := [], value := v0, writes := [] }

theorem update_hydrating {T S : Type} (f : T → S → T) (v0 : T) (as : List S) :
    ∀ (buf : List S),
    as.foldl (update f) { hydrating := true, buffer := buf, value := v0, writes := [] }
      = { hydrating := true, buffer := buf ++ as, value := v0, writes := [] } := by
  induction as with
  | nil => intro buf; simp
  | cons a as ih =>
    intro buf
    have hstep : update f { hydrating := true, buffer := buf, value := v0, writes := [] } a
        = { hydrating := true, buffer := buf ++ [a], value := v0, writes := [] } := by
      simp [update]
    show as.foldl (update f) (update f _ a) = _
    rw [hstep, ih (buf ++ [a])]
    simp

theorem replay_live {T S : Type} (f : T → S → T) (as : List S) :
    ∀ (v : T) (ws : List T),
    as.foldl (update f) { hydrating := false, buffer := [], value := v, writes := ws }
      = { hydrating := false, buffer := [], value := as.foldl f v,
          writes := ws ++ (List.scanl f v as).tail } := by
  induction as with
  | nil => intro v ws; simp
  | cons a as ih =>
    intro v ws
    have hstep : update f { hydrating := false, buffer := [], value := v, writes := ws } a
        = { hydrating := false, buffer := [], value := f v a, writes := ws ++ [f v a] } := by
      simp [update, commit]
    show as.foldl (update f) (update f _ a) = _
    rw [hstep, ih (f v a) (ws ++ [f v a])]
    simp only [List.foldl_cons, List.scanl, List.tail_cons, List.append_assoc,
      List.singleton_append]
    cases as <;> simp [List.scanl]

/-- C2: while the asynchronous deserialize is pending, every update issued
against the atom is appended to the buffer in arrival order and has no other
effect — the subject still holds the original initial value and no
external-store write happened; when hydration resolves with `h`, the
buffered updates are replayed in arrival order on top of the hydrated value
(not the original initial value), the final value is the fold of the reducer
over them starting from `h`, and only these replayed commits appear in the
write log (the buffered updates' effects reach the store only after
hydration completed; the hydrated commit itself is not written back because
the flag clears after it). -/
theorem buffered_updates_replay_after_hydration {T S : Type} (f : T → S → T)
    (v0 h : T) (as : List S) :
    (as.foldl (update f) (startState v0)
      = { hydrating := true, buffer := as, value := v0, writes := [] })
    ∧ resolveHydration f (as.foldl (update f) (startState v0)) h
      = { hydrating := false, buffer := [], value := as.foldl f h,
          writes := (List.scanl f h as).tail } := by
  have h1 := update_hydrating f v0 as []
  rw [startState]
  simp only [List.nil_append] at h1
  refine ⟨h1, ?_⟩
  rw [h1, resolveHydration, commit]
  simp only [if_pos rfl]
  exact replay_live f as h []

end Hydration

namespace Persist

/-- A stored record as parsed by
`JSON.parse(localStorage.getItem(persistKey) ?? '{}')`: the `data` and
`version` fields may each be absent.  The serialized payload type is
specialized to `T` (the source's `U` type parameter only renames it). -/
structure StoredJson (T V : Type) where
  data : Option T
  version : Option V

/-- Observable outcome of `atom({...})` construction with a `persistKey`
(part_002, first copy, lines 36-77): the subject's value when the
constructor returns, whether `removeItem` ran, and the `{data, version}`
records written by `setItem` during construction.  The write-back pipe is
attached with `subject.pipe(...)`, and `BehaviorSubject.pipe` eagerly
invokes the supplied `processFn` on the subject's current value to seed the
child, which runs the write-back body — serialize, then
`localStorage.setItem(persistKey, {data, version: appVersion})` — once at
attach time. -/
structure ConstructResult (T V : Type) where
  subjectValue : T
  removed : Bool
  written : List (T × Option V)

/-- Translation of the persistence block of `atom` (first copy): read and
parse the stored record (absent key parses to `{}`), remove it on a version
mismatch (`storedJson.version !== appVersion`, an equality on possibly
absent values), otherwise commit the deserialized or raw stored data; then
attach the write-back pipe, whose eager seeding writes the subject's current
value.  `deser` is the synchronous deserialize transform (the asynchronous
one leads into the hydration pipeline, which the `Hydration` model covers);
`ser` the optional serialize transform, identity when absent. -/
def construct {T V : Type} [DecidableEq V] (initialValue : T)
    (stored : Option (StoredJson T V)) (appVersion : Option V)
    (deser : Option (T → T)) (ser : Option (T → T)) : ConstructResult T V :=
  let sj := stored.getD ⟨none, none⟩
  if sj.version ≠ appVersion then
    { subjectValue := initialValue, removed := true,
      written := [((ser.getD id) initialValue, appVersion)] }
  else
    let v1 := match deser, sj.data with
      | some d, some u => d u
      | some _, none => initialValue
      | none, u => u.getD initialValue
    { subjectValue := v1, removed := false,
      written := [((ser.getD id) v1, appVersion)] }

/-- C9 counterexample: stored record `{data: 7, version: 1}` with configured
`appVersion = 2` and initial value `5`.  The record is removed and the
subject starts at `5` — but the claim's "no write-back of that initial value
to the store occurs at construction time" is false: the eager seeding of the
write-back pipe writes `{data: 5, version: 2}` during construction (the
repo's own test "Initial value should be persisted to local storage
immediately" asserts exactly this write). -/
theorem version_mismatch_writes_initial_cx :
    (construct (V := Nat) 5 (some ⟨some 7, some 1⟩) (some 2) none none).removed = true
    ∧ (construct (V := Nat) 5 (some ⟨some 7, some 1⟩) (some 2) none none).subjectValue = 5
    ∧ (construct (V := Nat) 5 (some ⟨some 7, some 1⟩) (some 2) none none).written
        = [(5, some 2)] := by
  exact ⟨rfl, rfl, rfl⟩

/-- C9 amended: on a version mismatch the stored record is removed and the
subject starts at the supplied initial value, but the write-back pipe's
eager seeding immediately writes the (serialized) initial value together
with the configured `appVersion` back to the store at construction time —
it is the only construction-time write. -/
theorem version_mismatch_discards_and_seeds_store {T V : Type} [DecidableEq V]
    (initialValue : T) (stored : Option (StoredJson T V)) (appVersion : Option V)
    (deser ser : Option (T → T))
    (hmm : (stored.getD ⟨none, none⟩).version ≠ appVersion) :
    (construct initialValue stored appVersion deser ser).removed = true
    ∧ (construct initialValue stored appVersion deser ser).subjectValue = initialValue
    ∧ (construct initialValue stored appVersion deser ser).written
        = [((ser.getD id) initialValue, appVersion)] := by
  rw [construct.eq_def]
  dsimp only
  rw [if_pos hmm]
  exact ⟨rfl, rfl, rfl⟩

/-- Closed instance of `version_mismatch_discards_and_seeds_store` at the
counterexample input. -/
theorem version_mismatch_discards_and_seeds_store_w :
    ((some (⟨some 7, some 1⟩ : StoredJson Nat Nat)).getD ⟨none, none⟩).version ≠ some 2
    ∧ ((construct (V := Nat) 5 (some ⟨some 7, some 1⟩) (some 2) none none).removed = true
      ∧ (construct (V := Nat) 5 (some ⟨some 7, some 1⟩) (some 2) none none).subjectValue = 5
      ∧ (construct (V := Nat) 5 (some ⟨some 7, some 1⟩) (some 2) none none).written
          = [((Option.getD (none : Option (Nat → Nat)) id) 5, some 2)]) :=
  ⟨by decide, version_mismatch_discards_and_seeds_store 5 (some ⟨some 7, some 1⟩)
    (some 2) none none (by decide)⟩

end Persist
